import Mathlib

/-
Verification of the djazzy_rust route-name extractor and incremental scan.

The development shallowly embeds the two Rust source files:

  * src/lib.rs   — extract_url_patterns, extract_from_tree, extract_pattern_name
  * src/main.rs  — find_urls_py_files and the cache merge in main

Modelling conventions:

  * A tree-sitter syntax node is `Node`: a kind string, a byte range and the
    list of immediate children.  Source buffers are `List Char`; Rust byte
    slicing `&src[a..b]` becomes drop/take on the character list (the sources
    only examine ASCII spans, where bytes and characters coincide).
  * Rust `str::contains`, `str::split('=')` and `str::trim_matches` are
    embedded as `strContains`, `splitChar '='` and `trimQuotes`, matching the
    standard-library semantics (split on every separator, trailing empty
    pieces kept; trim_matches strips the predicate repeatedly at both ends).
  * The imperative loops of extract_pattern_name become left folds over the
    child lists; the explicit work-stack loop of extract_from_tree becomes a
    well-founded recursion on the stack, popping from the head (the head of
    the Lean list models the top, i.e. the end of the Rust Vec).
  * The filesystem for the scan is the inductive `FS`; a file carries its
    mtime together with the outcome of fs::read_to_string (`read`) and of
    tree-sitter parsing (`parse`), both oracles of the on-disk content.
    HashMap<String, UrlEntry> is embedded extensionally as
    `List String → Option UrlEntry` keyed by path segments; insert and extend
    are right-biased updates exactly as for the Rust HashMap.
  * fs::metadata / modified() are assumed to succeed (the Rust code unwraps
    them with expect); timestamps are natural numbers compared for equality,
    faithful to the exact DateTime<Utc> equality used by the cache check.
-/

/-! ## String primitives (Rust str operations used by lib.rs) -/

/-- Rust `str::contains(pat)`: some tail of `s` starts with `pat`. -/
def strContains (s pat : List Char) : Bool :=
  s.tails.any (fun t => pat.isPrefixOf t)

/-- The closure `|c: char| c == '"' || c == '\''` from lib.rs line 64. -/
def isQuoteChar (c : Char) : Bool := c = '"' || c = '\''

/-- Rust `str::trim_matches` with the quote-character closure: repeatedly
strips matching characters from both ends. -/
def trimQuotes (s : List Char) : List Char :=
  ((s.dropWhile isQuoteChar).reverse.dropWhile isQuoteChar).reverse

/-- Rust `str::split(c)`: split on every occurrence of `c`, keeping empty
pieces (so `n+1` pieces for `n` separators). -/
def splitChar (c : Char) : List Char → List (List Char)
  | [] => [[]]
  | x :: xs =>
    if x = c then [] :: splitChar c xs
    else
      match splitChar c xs with
      | p :: ps => (x :: p) :: ps
      | [] => [[x]]

/-! ## Syntax nodes -/

/-- A tree-sitter node: kind, byte range, immediate children. -/
inductive Node where
  | mk : String → Nat → Nat → List Node → Node

def Node.kind : Node → String
  | .mk k _ _ _ => k

def Node.startByte : Node → Nat
  | .mk _ s _ _ => s

def Node.endByte : Node → Nat
  | .mk _ _ e _ => e

def Node.children : Node → List Node
  | .mk _ _ _ cs => cs

/-- The slice `&source_code[node.byte_range()]`. -/
def nodeText (src : List Char) (n : Node) : List Char :=
  (src.drop n.startByte).take (n.endByte - n.startByte)

/-! ## lib.rs: extract_pattern_name -/

/-- lib.rs line 6: `const FUNCTION_CALLS: [&str; 2] = ["path", "re_path"]`. -/
def FUNCTION_CALLS : List (List Char) := ["path".toList, "re_path".toList]

/-- The literal substring name= tested for at lib.rs line 62. -/
def nameEq : List Char := "name=".toList

/-- Body of the inner argument loop of extract_pattern_name (lib.rs lines
59-69): one keyword-argument child updates the `name_arg` accumulator. -/
def processKwarg (src : List Char) (nameArg : Option (List Char)) (arg : Node) :
    Option (List Char) :=
  if arg.kind = "keyword_argument" then
    let argText := nodeText src arg
    if strContains argText nameEq then
      match splitChar '=' argText with
      | [_, rhs] => some (trimQuotes rhs)
      | _ => nameArg
    else nameArg
  else nameArg

/-- Body of the outer child loop of extract_pattern_name (lib.rs lines
52-71): one child of the call node updates `(func_name, name_arg)`. -/
def processChild (src : List Char) (st : Option (List Char) × Option (List Char))
    (child : Node) : Option (List Char) × Option (List Char) :=
  if child.kind = "identifier" then
    let text := nodeText src child
    if text ∈ FUNCTION_CALLS then (some text, st.2) else st
  else if child.kind = "argument_list" then
    (st.1, child.children.foldl (processKwarg src) st.2)
  else st

/-- lib.rs lines 48-78: extract_pattern_name. -/
def extract_pattern_name (src : List Char) (node : Node) : Option (List Char) :=
  match node.children.foldl (processChild src) (none, none) with
  | (some _, some nameArg) => some nameArg
  | _ => none

/-! ## lib.rs: extract_from_tree -/

theorem sizeOf_list_append {α} [SizeOf α] (l₁ l₂ : List α) :
    sizeOf (l₁ ++ l₂) + 1 = sizeOf l₁ + sizeOf l₂ := by
  induction l₁ with
  | nil => simp; omega
  | cons a t ih => simp_all; omega

theorem sizeOf_list_reverse {α} [SizeOf α] (l : List α) :
    sizeOf l.reverse = sizeOf l := by
  induction l with
  | nil => rfl
  | cons a t ih =>
      have := sizeOf_list_append t.reverse [a]
      simp_all; omega

theorem sizeOf_children_lt (n : Node) : sizeOf n.children < sizeOf n := by
  cases n with
  | mk k s e cs => simp [Node.children]

/-- The worklist loop of extract_from_tree (lib.rs lines 30-46).  The head of
the stack list is the top of the Rust Vec; popping `node` pushes its children
so that the last child is popped first, and a call node appends the extracted
name (if any) to the accumulated patterns. -/
def extractLoop (src : List Char) : List Node → List (List Char) → List (List Char)
  | [], patterns => patterns
  | node :: rest, patterns =>
      extractLoop src (node.children.reverse ++ rest)
        (if node.kind = "call" then
           match extract_pattern_name src node with
           | some nm => patterns ++ [nm]
           | none => patterns
         else patterns)
termination_by stack _ => sizeOf stack
decreasing_by
  have h1 := sizeOf_list_append node.children.reverse rest
  have h2 := sizeOf_list_reverse node.children
  have h3 := sizeOf_children_lt node
  simp at *; omega

/-- lib.rs lines 30-46: extract_from_tree, pushing into an existing pattern
vector. -/
def extract_from_tree (src : List Char) (root : Node) (patterns : List (List Char)) :
    List (List Char) :=
  extractLoop src [root] patterns

/-! ## lib.rs: extract_url_patterns, and the filesystem model for main.rs -/

/-- A scanned file: its modification time plus the outcomes of
fs::read_to_string and of tree-sitter parsing for its current content.  The
two Options are oracles for the external world; lib.rs consults them in this
order and soft-fails to an empty pattern list (lib.rs lines 12-23). -/
structure FileData where
  mtime : Nat
  read : Option (List Char)
  parse : Option Node

/-- main.rs lines 19-23: a cache value (patterns plus mtime). -/
structure UrlEntry where
  patterns : List (List Char)
  mtime : Nat
deriving DecidableEq

/-- A directory tree; file data as in `FileData`. -/
inductive FS where
  | file (name : String) (data : FileData)
  | dir (name : String) (entries : List FS)

/-- lib.rs lines 9-28: extract_url_patterns.  Read failure and parse failure
both yield the empty pattern list; otherwise the tree walk starts from an
empty vector. -/
def extract_url_patterns (d : FileData) : List (List Char) :=
  match d.read with
  | none => []
  | some src =>
    match d.parse with
    | none => []
    | some tree => extract_from_tree src tree []

/-- HashMap<String, UrlEntry>, extensionally, keyed by path segments. -/
def CacheMap : Type := List String → Option UrlEntry

def mapEmpty : CacheMap := fun _ => none

/-- HashMap::insert into an empty map (one file's contribution). -/
def mapSingleton (k : List String) (v : UrlEntry) : CacheMap :=
  fun p => if p = k then some v else none

/-- HashMap::extend: entries of `m₂` override entries of `m₁`. -/
def mapExtend (m₁ m₂ : CacheMap) : CacheMap :=
  fun p => match m₂ p with
    | some v => some v
    | none => m₁ p

/-- main.rs line 11: `const FILE_TYPES: [&str; 1] = ["urls.py"]`. -/
def FILE_TYPES : List String := ["urls.py"]

/-- main.rs lines 12-17: the ignored directory basenames. -/
def IGNORED_DIRS : List String := [".venv", "node_modules", "__pycache__", "migrations"]

/-- main.rs lines 74-92, per-file decision: reuse the cached entry when its
mtime equals the file's current mtime, otherwise re-extract and stamp the
current mtime. -/
def fileEntryFor (cache : CacheMap) (p : List String) (d : FileData) : UrlEntry :=
  match cache p with
  | some existing_entry =>
      if existing_entry.mtime = d.mtime then existing_entry
      else { patterns := extract_url_patterns d, mtime := d.mtime }
  | none => { patterns := extract_url_patterns d, mtime := d.mtime }

mutual
/-- main.rs lines 56-98: find_urls_py_files.  A non-directory root yields no
results; a directory is scanned entry by entry. -/
def findUrlsPyFiles (cache : CacheMap) (sp : List String) : FS → CacheMap
  | .file _ _ => mapEmpty
  | .dir _ entries => scanEntries cache sp entries

/-- The read_dir loop of find_urls_py_files (main.rs lines 60-96).  The
imperative accumulation of results.insert / results.extend is rendered as a
right-biased union in entry order: a later entry's contribution overrides an
earlier one's, exactly as repeated HashMap insertion does. -/
def scanEntries (cache : CacheMap) (sp : List String) : List FS → CacheMap
  | [] => mapEmpty
  | .dir n sub :: rest =>
      if n ∈ IGNORED_DIRS then scanEntries cache sp rest
      else
        mapExtend (findUrlsPyFiles cache (sp ++ [n]) (.dir n sub))
          (scanEntries cache sp rest)
  | .file n d :: rest =>
      if n ∈ FILE_TYPES then
        mapExtend (mapSingleton (sp ++ [n]) (fileEntryFor cache (sp ++ [n]) d))
          (scanEntries cache sp rest)
      else scanEntries cache sp rest
end

/-- main.rs lines 110-117: the `urls` map after one run of main —
`cache.urls.extend(updated_urls)` over the scan of the project root. -/
def mainUrlsUpdate (old : CacheMap) (sp : List String) (root : FS) : CacheMap :=
  mapExtend old (findUrlsPyFiles old sp root)

/-! ## Characterizing extract_pattern_name

The imperative loops are folds; the lemmas below rewrite them as "last
successful recovery" over explicit lists, which the claim theorems then use.
-/

/-- The recovery a single keyword-argument child yields, if any: the span
must contain the substring name=, and splitting the span on every equals sign
must give exactly two pieces; the result is the trimmed right piece. -/
def recoverKwarg (src : List Char) (arg : Node) : Option (List Char) :=
  if arg.kind = "keyword_argument" ∧ strContains (nodeText src arg) nameEq = true then
    match splitChar '=' (nodeText src arg) with
    | [_, rhs] => some (trimQuotes rhs)
    | _ => none
  else none

/-- All successful recoveries of a keyword-argument list, in order. -/
def kwargRecoveries (src : List Char) : List Node → List (List Char)
  | [] => []
  | arg :: rest =>
      match recoverKwarg src arg with
      | some v => v :: kwargRecoveries src rest
      | none => kwargRecoveries src rest

/-- The recognized callee identifiers among a call node's children, in order. -/
def identMatches (src : List Char) : List Node → List (List Char)
  | [] => []
  | c :: rest =>
      (if c.kind = "identifier" ∧ nodeText src c ∈ FUNCTION_CALLS
       then [nodeText src c] else []) ++ identMatches src rest

/-- All successful keyword recoveries over the argument-list children of a
call node, flattened in child order. -/
def callRecoveries (src : List Char) : List Node → List (List Char)
  | [] => []
  | c :: rest =>
      (if c.kind = "argument_list" then kwargRecoveries src c.children else [])
        ++ callRecoveries src rest

/-- Last element of a list, or a default for the empty list: the value of a
"latest write wins" accumulator primed with `o`. -/
def lastD {α} (l : List α) (o : Option α) : Option α :=
  match l with
  | [] => o
  | _ => l.getLast?

theorem lastD_cons {α} (a : α) (l : List α) (o : Option α) :
    lastD (a :: l) o = lastD l (some a) := by
  cases l with
  | nil => rfl
  | cons b t => simp [lastD, List.getLast?_cons_cons]

theorem lastD_append {α} (l₁ l₂ : List α) (o : Option α) :
    lastD (l₁ ++ l₂) o = lastD l₂ (lastD l₁ o) := by
  induction l₁ generalizing o with
  | nil => rfl
  | cons a t ih => simp [lastD_cons, ih]

theorem lastD_none {α} (l : List α) : lastD l none = l.getLast? := by
  cases l with
  | nil => rfl
  | cons a t => rfl

theorem processKwarg_eq (src : List Char) (n0 : Option (List Char)) (arg : Node) :
    processKwarg src n0 arg =
      (match recoverKwarg src arg with
       | some v => some v
       | none => n0) := by
  unfold processKwarg recoverKwarg
  rcases hs : splitChar '=' (nodeText src arg) with _ | ⟨a, _ | ⟨b, _ | ⟨c, t⟩⟩⟩ <;>
    by_cases h1 : arg.kind = "keyword_argument" <;>
      by_cases h2 : strContains (nodeText src arg) nameEq = true <;>
        simp [h1, h2, hs]

theorem foldl_processKwarg_eq (src : List Char) (args : List Node)
    (n0 : Option (List Char)) :
    args.foldl (processKwarg src) n0 = lastD (kwargRecoveries src args) n0 := by
  induction args generalizing n0 with
  | nil => rfl
  | cons a rest ih =>
      rw [List.foldl_cons, processKwarg_eq]
      cases h : recoverKwarg src a with
      | none => simp [kwargRecoveries, h, ih]
      | some v => simp [kwargRecoveries, h, ih, lastD_cons]

theorem foldl_processChild_eq (src : List Char) (cs : List Node)
    (st : Option (List Char) × Option (List Char)) :
    cs.foldl (processChild src) st =
      (lastD (identMatches src cs) st.1, lastD (callRecoveries src cs) st.2) := by
  induction cs generalizing st with
  | nil => simp [identMatches, callRecoveries, lastD]
  | cons c rest ih =>
      rw [List.foldl_cons, ih]
      by_cases h1 : c.kind = "identifier"
      · by_cases h2 : nodeText src c ∈ FUNCTION_CALLS
        · simp [processChild, identMatches, callRecoveries, h1, h2, lastD_cons]
        · simp [processChild, identMatches, callRecoveries, h1, h2]
      · by_cases h3 : c.kind = "argument_list"
        · simp [processChild, identMatches, callRecoveries, h1, h3,
            foldl_processKwarg_eq, lastD_append]
        · simp [processChild, identMatches, callRecoveries, h1, h3]

/-- extract_pattern_name as "recognized callee present, then last successful
keyword recovery in child order". -/
theorem extract_pattern_name_char (src : List Char) (node : Node) :
    extract_pattern_name src node =
      (match identMatches src node.children with
       | [] => none
       | _ => (callRecoveries src node.children).getLast?) := by
  unfold extract_pattern_name
  rw [foldl_processChild_eq]
  cases him : identMatches src node.children with
  | nil => simp [lastD]
  | cons x t =>
      rw [lastD_none, lastD_none]
      cases hx : (x :: t).getLast? with
      | none => simp at hx
      | some y =>
          cases hc : (callRecoveries src node.children).getLast? with
          | none => simp
          | some v => simp

/-! ## Structure of trimQuotes -/

theorem dropWhile_head_not {p : Char → Bool} {l : List Char} {c : Char}
    (h : (l.dropWhile p).head? = some c) : p c = false := by
  induction l with
  | nil => simp [List.dropWhile] at h
  | cons a t ih =>
      by_cases ha : p a
      · rw [List.dropWhile_cons_of_pos ha] at h
        exact ih h
      · rw [List.dropWhile_cons_of_neg ha] at h
        simp at h
        rw [h] at ha
        simpa using ha

theorem dropWhile_split (p : Char → Bool) (l : List Char) :
    ∃ u, (∀ c ∈ u, p c = true) ∧ u ++ l.dropWhile p = l := by
  induction l with
  | nil => exact ⟨[], by simp, rfl⟩
  | cons a t ih =>
      by_cases ha : p a
      · obtain ⟨u, hu, hsplit⟩ := ih
        refine ⟨a :: u, ?_, ?_⟩
        · intro c hc
          rcases List.mem_cons.mp hc with h | h
          · rw [h]; exact ha
          · exact hu c h
        · rw [List.dropWhile_cons_of_pos ha, List.cons_append, hsplit]
      · exact ⟨[], by simp, by rw [List.dropWhile_cons_of_neg ha, List.nil_append]⟩

/-- trimQuotes splits its argument into a fully-quoted front part, the
result, and a fully-quoted back part. -/
theorem trimQuotes_split (s : List Char) :
    ∃ pre suf, (∀ c ∈ pre, isQuoteChar c = true) ∧ (∀ c ∈ suf, isQuoteChar c = true) ∧
      s = pre ++ trimQuotes s ++ suf := by
  obtain ⟨pre, hpre, hs1⟩ := dropWhile_split isQuoteChar s
  obtain ⟨u, hu, hs2⟩ := dropWhile_split isQuoteChar (s.dropWhile isQuoteChar).reverse
  refine ⟨pre, u.reverse, hpre, ?_, ?_⟩
  · intro c hc
    exact hu c (List.mem_reverse.mp hc)
  · have hmid : s.dropWhile isQuoteChar = trimQuotes s ++ u.reverse := by
      have := congrArg List.reverse hs2
      simpa [trimQuotes] using this.symm
    conv_lhs => rw [← hs1, hmid]
    rw [List.append_assoc]

/-- The middle piece of the trim never starts with a quote character. -/
theorem trimQuotes_head {s : List Char} {c : Char}
    (h : (trimQuotes s).head? = some c) : isQuoteChar c = false := by
  obtain ⟨u, hu, hs2⟩ := dropWhile_split isQuoteChar (s.dropWhile isQuoteChar).reverse
  have hmid : s.dropWhile isQuoteChar = trimQuotes s ++ u.reverse := by
    have := congrArg List.reverse hs2
    simpa [trimQuotes] using this.symm
  cases ht : trimQuotes s with
  | nil => rw [ht] at h; simp at h
  | cons x t =>
      rw [ht] at h
      simp at h
      apply dropWhile_head_not (l := s) (p := isQuoteChar)
      rw [hmid, ht, h]
      simp

/-- The middle piece of the trim never ends with a quote character. -/
theorem trimQuotes_getLast {s : List Char} {c : Char}
    (h : (trimQuotes s).getLast? = some c) : isQuoteChar c = false := by
  have hrev : (trimQuotes s).reverse.head? = some c := by
    rw [List.head?_reverse]; exact h
  have : (trimQuotes s).reverse = (s.dropWhile isQuoteChar).reverse.dropWhile isQuoteChar := by
    simp [trimQuotes]
  rw [this] at hrev
  exact dropWhile_head_not hrev

/-! ## Membership characterizations -/

theorem recoverKwarg_eq_some_iff (src : List Char) (arg : Node) (v : List Char) :
    recoverKwarg src arg = some v ↔
      arg.kind = "keyword_argument" ∧ strContains (nodeText src arg) nameEq = true ∧
        ∃ lhs rhs, splitChar '=' (nodeText src arg) = [lhs, rhs] ∧ v = trimQuotes rhs := by
  unfold recoverKwarg
  by_cases h1 : arg.kind = "keyword_argument" <;>
    by_cases h2 : strContains (nodeText src arg) nameEq = true <;>
      rcases hs : splitChar '=' (nodeText src arg) with _ | ⟨a, _ | ⟨b, _ | ⟨c, t⟩⟩⟩ <;>
        simp [h1, h2, hs] <;> aesop

theorem recoverKwarg_ne_none_iff (src : List Char) (arg : Node) :
    recoverKwarg src arg ≠ none ↔
      arg.kind = "keyword_argument" ∧ strContains (nodeText src arg) nameEq = true ∧
        ∃ lhs rhs, splitChar '=' (nodeText src arg) = [lhs, rhs] := by
  unfold recoverKwarg
  by_cases h1 : arg.kind = "keyword_argument" <;>
    by_cases h2 : strContains (nodeText src arg) nameEq = true <;>
      rcases hs : splitChar '=' (nodeText src arg) with _ | ⟨a, _ | ⟨b, _ | ⟨c, t⟩⟩⟩ <;>
        simp [h1, h2, hs]

theorem mem_kwargRecoveries (src : List Char) (args : List Node) (v : List Char) :
    v ∈ kwargRecoveries src args ↔ ∃ arg ∈ args, recoverKwarg src arg = some v := by
  induction args with
  | nil => simp [kwargRecoveries]
  | cons a rest ih =>
      cases h : recoverKwarg src a with
      | none => simp only [kwargRecoveries, h, ih, List.mem_cons] <;> aesop
      | some w => simp only [kwargRecoveries, h, ih, List.mem_cons] <;> aesop

theorem mem_callRecoveries (src : List Char) (cs : List Node) (v : List Char) :
    v ∈ callRecoveries src cs ↔
      ∃ c ∈ cs, c.kind = "argument_list" ∧ v ∈ kwargRecoveries src c.children := by
  induction cs with
  | nil => simp [callRecoveries]
  | cons c rest ih =>
      by_cases h : c.kind = "argument_list" <;>
        simp only [callRecoveries, h, if_pos, if_neg, List.mem_append, List.mem_cons,
          List.nil_append, ih, not_false_iff] <;> aesop

theorem identMatches_ne_nil_iff (src : List Char) (cs : List Node) :
    identMatches src cs ≠ [] ↔
      ∃ c ∈ cs, c.kind = "identifier" ∧ nodeText src c ∈ FUNCTION_CALLS := by
  induction cs with
  | nil => simp [identMatches]
  | cons c rest ih =>
      by_cases h : c.kind = "identifier" ∧ nodeText src c ∈ FUNCTION_CALLS <;>
        simp only [identMatches, if_pos, if_neg, h, List.cons_append, List.nil_append,
          List.mem_cons, ih, ne_eq, reduceCtorEq, not_false_iff] <;> aesop

theorem kwargRecoveries_ne_nil_iff (src : List Char) (args : List Node) :
    kwargRecoveries src args ≠ [] ↔ ∃ arg ∈ args, recoverKwarg src arg ≠ none := by
  induction args with
  | nil => simp [kwargRecoveries]
  | cons a rest ih =>
      cases h : recoverKwarg src a with
      | none => simp only [kwargRecoveries, h, ih, List.mem_cons] <;> aesop
      | some w =>
          simp only [kwargRecoveries, h, ne_eq, reduceCtorEq, not_false_iff, true_iff,
            List.mem_cons]
          exact ⟨a, Or.inl rfl, by simp [h]⟩

theorem callRecoveries_ne_nil_iff (src : List Char) (cs : List Node) :
    callRecoveries src cs ≠ [] ↔
      ∃ c ∈ cs, c.kind = "argument_list" ∧ kwargRecoveries src c.children ≠ [] := by
  constructor
  · intro h
    rcases List.exists_mem_of_ne_nil _ h with ⟨v, hv⟩
    rcases (mem_callRecoveries src cs v).mp hv with ⟨c, hm, hk, hvk⟩
    exact ⟨c, hm, hk, List.ne_nil_of_mem hvk⟩
  · rintro ⟨c, hm, hk, hne⟩
    rcases List.exists_mem_of_ne_nil _ hne with ⟨v, hv⟩
    exact List.ne_nil_of_mem ((mem_callRecoveries src cs v).mpr ⟨c, hm, hk, hv⟩)

theorem extract_some_mem_callRecoveries (src : List Char) (node : Node)
    (nm : List Char) (h : extract_pattern_name src node = some nm) :
    nm ∈ callRecoveries src node.children := by
  rw [extract_pattern_name_char] at h
  cases him : identMatches src node.children with
  | nil => rw [him] at h; cases h
  | cons x t =>
      rw [him] at h
      exact List.mem_of_mem_getLast? h

/-! ## Claims C1-C4: per-call extraction -/

/-- Claim C1 (amended).  For every route name produced, the right-hand side of
the keyword-argument span is stripped of ALL surrounding single or double
quote characters (one layer or more, in any mix), not exactly one layer: the
produced name never begins or ends with a quote character, and what was
removed at either end consists of quote characters only, the bytes between
them being preserved verbatim. -/
theorem extract_name_quotes_trimmed_all_layers (src : List Char) (node : Node)
    (nm : List Char) (h : extract_pattern_name src node = some nm) :
    ∃ al ∈ node.children, al.kind = "argument_list" ∧
      ∃ arg ∈ al.children, arg.kind = "keyword_argument" ∧
        strContains (nodeText src arg) nameEq = true ∧
        ∃ lhs rhs pre suf, splitChar '=' (nodeText src arg) = [lhs, rhs] ∧
          nm = trimQuotes rhs ∧
          (∀ c ∈ pre, isQuoteChar c = true) ∧ (∀ c ∈ suf, isQuoteChar c = true) ∧
          rhs = pre ++ nm ++ suf ∧
          (∀ c, nm.head? = some c → isQuoteChar c = false) ∧
          (∀ c, nm.getLast? = some c → isQuoteChar c = false) := by
  have hmem := extract_some_mem_callRecoveries src node nm h
  rcases (mem_callRecoveries src node.children nm).mp hmem with ⟨al, hal, halk, hkm⟩
  rcases (mem_kwargRecoveries src al.children nm).mp hkm with ⟨arg, harg, hrec⟩
  rcases (recoverKwarg_eq_some_iff src arg nm).mp hrec with ⟨hk, hcont, lhs, rhs, hs, hnm⟩
  obtain ⟨pre, suf, hpre, hsuf, hsplit⟩ := trimQuotes_split rhs
  refine ⟨al, hal, halk, arg, harg, hk, hcont, lhs, rhs, pre, suf, hs, hnm,
    hpre, hsuf, ?_, ?_, ?_⟩
  · rw [hnm]; exact hsplit
  · intro c hc; rw [hnm] at hc; exact trimQuotes_head hc
  · intro c hc; rw [hnm] at hc; exact trimQuotes_getLast hc

/-- Source buffer: path(name="'q'") — a doubly-quoted value. -/
def c1src : List Char := "path(name=\"'q'\")".toList

def c1kw : Node := .mk "keyword_argument" 5 15 []

def c1node : Node :=
  .mk "call" 0 16 [.mk "identifier" 0 4 [], .mk "argument_list" 4 16 [c1kw]]

/-- Counterexample to claim C1 as stated: for the literal value "'q'" exactly
one stripped layer would keep the inner single quotes, but the extractor
returns the fully-trimmed q. -/
theorem inner_quotes_not_preserved :
    extract_pattern_name c1src c1node = some ("q".toList) ∧
      extract_pattern_name c1src c1node ≠ some ("'q'".toList) := by
  decide

theorem extract_name_quotes_trimmed_all_layers_witness :
    extract_pattern_name c1src c1node = some ("q".toList) ∧
    (∃ al ∈ c1node.children, al.kind = "argument_list" ∧
      ∃ arg ∈ al.children, arg.kind = "keyword_argument" ∧
        strContains (nodeText c1src arg) nameEq = true ∧
        ∃ lhs rhs pre suf, splitChar '=' (nodeText c1src arg) = [lhs, rhs] ∧
          "q".toList = trimQuotes rhs ∧
          (∀ c ∈ pre, isQuoteChar c = true) ∧ (∀ c ∈ suf, isQuoteChar c = true) ∧
          rhs = pre ++ "q".toList ++ suf ∧
          (∀ c, ("q".toList).head? = some c → isQuoteChar c = false) ∧
          (∀ c, ("q".toList).getLast? = some c → isQuoteChar c = false)) :=
  ⟨by decide, extract_name_quotes_trimmed_all_layers c1src c1node ("q".toList) (by decide)⟩

/-- Claim C2 (amended).  The extractor splits the keyword-argument span on
EVERY equals sign and only accepts the result when there are exactly two
pieces (exactly one equals sign in the span).  A span containing more than
one equals sign is not split on the first one: it contributes no recovery at
all, so a recognized call whose only name= keyword argument has such a span
yields no route name. -/
theorem kwarg_multi_equals_yields_none (src : List Char) (node idn al kw : Node)
    (hch : node.children = [idn, al])
    (hid : idn.kind = "identifier") (hfc : nodeText src idn ∈ FUNCTION_CALLS)
    (hal : al.kind = "argument_list") (halc : al.children = [kw])
    (hcont : strContains (nodeText src kw) nameEq = true)
    (hlen : (splitChar '=' (nodeText src kw)).length ≠ 2) :
    extract_pattern_name src node = none := by
  have hrec : recoverKwarg src kw = none := by
    by_contra hne
    rcases (recoverKwarg_ne_none_iff src kw).mp hne with ⟨_, _, lhs, rhs, hs⟩
    exact hlen (by rw [hs]; rfl)
  have halid : ¬ al.kind = "identifier" := by rw [hal]; decide
  have hidal : ¬ idn.kind = "argument_list" := by rw [hid]; decide
  rw [extract_pattern_name_char, hch]
  simp [identMatches, callRecoveries, kwargRecoveries, hid, hfc, hal, halc,
    halid, hidal, hrec]

/-- Source buffer: path(name="a=b") — the span of the keyword argument holds
two equals signs. -/
def c2src : List Char := "path(name=\"a=b\")".toList

def c2id : Node := .mk "identifier" 0 4 []

def c2kw : Node := .mk "keyword_argument" 5 15 []

def c2al : Node := .mk "argument_list" 4 16 [c2kw]

def c2node : Node := .mk "call" 0 16 [c2id, c2al]

/-- Counterexample to claim C2 as stated: the span name="a=b" contains name=
and has text after its first equals sign, yet the call yields no route name
at all (the claim predicts the trimmed text after the first equals sign). -/
theorem kwarg_multi_equals_not_split_on_first :
    strContains (nodeText c2src c2kw) nameEq = true ∧
      extract_pattern_name c2src c2node = none := by
  decide

theorem kwarg_multi_equals_yields_none_witness :
    (c2node.children = [c2id, c2al] ∧ c2id.kind = "identifier" ∧
      nodeText c2src c2id ∈ FUNCTION_CALLS ∧ c2al.kind = "argument_list" ∧
      c2al.children = [c2kw] ∧ strContains (nodeText c2src c2kw) nameEq = true ∧
      (splitChar '=' (nodeText c2src c2kw)).length ≠ 2) ∧
    extract_pattern_name c2src c2node = none :=
  ⟨⟨rfl, by decide, by decide, by decide, rfl, by decide, by decide⟩,
   kwarg_multi_equals_yields_none c2src c2node c2id c2al c2kw rfl (by decide)
     (by decide) (by decide) rfl (by decide) (by decide)⟩

/-- Claim C3.  A call node yields a route name iff it has an immediate
identifier child whose text is path or re_path, and some argument-list child
holds a keyword argument from which a name= literal is successfully recovered
(span contains name= and splits into exactly two pieces). -/
theorem call_yields_name_iff (src : List Char) (node : Node) :
    (∃ nm, extract_pattern_name src node = some nm) ↔
      (∃ c ∈ node.children, c.kind = "identifier" ∧ nodeText src c ∈ FUNCTION_CALLS) ∧
      (∃ al ∈ node.children, al.kind = "argument_list" ∧
        ∃ arg ∈ al.children, arg.kind = "keyword_argument" ∧
          strContains (nodeText src arg) nameEq = true ∧
          ∃ lhs rhs, splitChar '=' (nodeText src arg) = [lhs, rhs]) := by
  have key : (∃ nm, extract_pattern_name src node = some nm) ↔
      identMatches src node.children ≠ [] ∧ callRecoveries src node.children ≠ [] := by
    rw [extract_pattern_name_char]
    cases him : identMatches src node.children with
    | nil => simp
    | cons x t =>
        simp only [ne_eq, reduceCtorEq, not_false_iff, true_and]
        cases hc : (callRecoveries src node.children).getLast? with
        | none =>
            have := List.getLast?_eq_none_iff.mp hc
            simp [this]
        | some v =>
            have hmem := List.mem_of_mem_getLast? hc
            have := List.ne_nil_of_mem hmem
            simp [hc, this]
  rw [key, identMatches_ne_nil_iff, callRecoveries_ne_nil_iff]
  simp only [kwargRecoveries_ne_nil_iff, recoverKwarg_ne_none_iff]

/-- Claim C4 (amended).  For a call with a recognized callee, the route name
produced is the LAST SUCCESSFUL keyword recovery in child order over the
argument-list children: keyword arguments whose span contains name= but whose
recovery fails (more than one equals sign) are skipped even when they come
later, so the last successful one wins. -/
theorem last_successful_recovery_wins (src : List Char) (node : Node)
    (h : ∃ c ∈ node.children, c.kind = "identifier" ∧ nodeText src c ∈ FUNCTION_CALLS) :
    extract_pattern_name src node = (callRecoveries src node.children).getLast? := by
  have him := (identMatches_ne_nil_iff src node.children).mpr h
  rw [extract_pattern_name_char]
  cases hm : identMatches src node.children with
  | nil => exact absurd hm him
  | cons x t => rfl

/-- Source buffer: path(name="a", name="b=c") — the later name= keyword
argument has an unrecoverable span. -/
def c4src : List Char := "path(name=\"a\", name=\"b=c\")".toList

def c4kw1 : Node := .mk "keyword_argument" 5 13 []

def c4kw2 : Node := .mk "keyword_argument" 15 25 []

def c4node : Node :=
  .mk "call" 0 26 [.mk "identifier" 0 4 [], .mk "argument_list" 4 26 [c4kw1, c4kw2]]

/-- Counterexample to claim C4 as stated: both keyword arguments contain
name=, the later one recovers nothing, and the call's route name comes from
the EARLIER keyword argument — not from the last name=-containing one. -/
theorem last_name_kwarg_not_always_winner :
    strContains (nodeText c4src c4kw1) nameEq = true ∧
    strContains (nodeText c4src c4kw2) nameEq = true ∧
    recoverKwarg c4src c4kw2 = none ∧
    recoverKwarg c4src c4kw1 = some ("a".toList) ∧
    extract_pattern_name c4src c4node = some ("a".toList) := by
  decide

/-- Source buffer: path(name="a", name="b") — two successful recoveries. -/
def c4wsrc : List Char := "path(name=\"a\", name=\"b\")".toList

def c4wnode : Node :=
  .mk "call" 0 24
    [.mk "identifier" 0 4 [],
     .mk "argument_list" 4 24
       [.mk "keyword_argument" 5 13 [], .mk "keyword_argument" 15 23 []]]

theorem last_successful_recovery_wins_witness :
    (∃ c ∈ c4wnode.children, c.kind = "identifier" ∧
      nodeText c4wsrc c ∈ FUNCTION_CALLS) ∧
    extract_pattern_name c4wsrc c4wnode =
      (callRecoveries c4wsrc c4wnode.children).getLast? ∧
    extract_pattern_name c4wsrc c4wnode = some ("b".toList) :=
  ⟨by decide, last_successful_recovery_wins c4wsrc c4wnode (by decide), by decide⟩

/-! ## Claim C5: the tree walk -/

mutual
/-- The order in which the worklist loop visits the nodes of a subtree:
the node itself, then the subtrees of its children, last child first
(children are pushed in natural order and popped from the top). -/
def walkOrder : Node → List Node
  | .mk k s e cs => .mk k s e cs :: walkOrderList cs

def walkOrderList : List Node → List Node
  | [] => []
  | c :: rest => walkOrderList rest ++ walkOrder c
end

/-- Visit order for a whole stack of pending subtrees, top first. -/
def flatTraverse : List Node → List Node
  | [] => []
  | n :: rest => walkOrder n ++ flatTraverse rest

/-- The contribution of one visited node: a route name when it is a call
node whose extraction succeeds, nothing otherwise. -/
def gCall (src : List Char) (n : Node) : Option (List Char) :=
  if n.kind = "call" then extract_pattern_name src n else none

theorem flatTraverse_append (l₁ l₂ : List Node) :
    flatTraverse (l₁ ++ l₂) = flatTraverse l₁ ++ flatTraverse l₂ := by
  induction l₁ with
  | nil => rfl
  | cons n rest ih => simp [flatTraverse, ih]

theorem flatTraverse_reverse (cs : List Node) :
    flatTraverse cs.reverse = walkOrderList cs := by
  induction cs with
  | nil => rfl
  | cons c rest ih =>
      simp [flatTraverse, walkOrderList, List.reverse_cons, flatTraverse_append, ih]

theorem extractLoop_step (src : List Char) (node : Node) (acc : List (List Char)) :
    (if node.kind = "call" then
       match extract_pattern_name src node with
       | some nm => acc ++ [nm]
       | none => acc
     else acc) = acc ++ (gCall src node).toList := by
  unfold gCall
  by_cases h : node.kind = "call"
  · cases he : extract_pattern_name src node <;> simp [h, he]
  · simp [h]

theorem extractLoop_step_dite (src : List Char) (node : Node) (acc : List (List Char)) :
    (if h : node.kind = "call" then
       match extract_pattern_name src node with
       | some nm => acc ++ [nm]
       | none => acc
     else acc) = acc ++ (gCall src node).toList := by
  rw [dite_eq_ite]
  exact extractLoop_step src node acc

theorem walkOrder_mk (k : String) (s e : Nat) (cs : List Node) :
    walkOrder (Node.mk k s e cs) = Node.mk k s e cs :: walkOrderList cs := by
  unfold walkOrder
  rfl

/-- The worklist loop visits exactly the nodes of `flatTraverse` in order,
appending each visited node's contribution. -/
theorem extractLoop_eq (src : List Char) (stack : List Node) (acc : List (List Char)) :
    extractLoop src stack acc = acc ++ (flatTraverse stack).filterMap (gCall src) := by
  induction stack, acc using extractLoop.induct src with
  | case1 acc => simp [extractLoop, flatTraverse]
  | case2 node rest acc ih =>
      rw [extractLoop, extractLoop_step]
      rw [extractLoop_step_dite] at ih
      rw [ih]
      rcases node with ⟨k, s, e, cs⟩
      simp only [Node.children, flatTraverse_append, flatTraverse_reverse, flatTraverse,
        List.filterMap_append, List.filterMap_cons]
      cases he : gCall src (.mk k s e cs) <;> simp [walkOrder_mk, he, List.filterMap_cons,
        List.filterMap_append]

/-! ## Claims C6-C9: infrastructure for the scan -/

def entryName : FS → String
  | .file n _ => n
  | .dir n _ => n

mutual
/-- Filesystem well-formedness: within each directory the entry basenames
are pairwise distinct, as a real filesystem guarantees. -/
def fsWF : FS → Bool
  | .file _ _ => true
  | .dir _ entries => decide (entries.map entryName).Nodup && fslWF entries

def fslWF : List FS → Bool
  | [] => true
  | e :: rest => fsWF e && fslWF rest
end

mutual
/-- Simultaneous induction for FS and lists of FS entries. -/
def fsRecP {P : FS → Prop} {Q : List FS → Prop}
    (hf : ∀ n d, P (.file n d)) (hd : ∀ n l, Q l → P (.dir n l))
    (h0 : Q []) (hc : ∀ e l, P e → Q l → Q (e :: l)) : ∀ fs, P fs
  | .file n d => hf n d
  | .dir n l => hd n l (fslRecP hf hd h0 hc l)

def fslRecP {P : FS → Prop} {Q : List FS → Prop}
    (hf : ∀ n d, P (.file n d)) (hd : ∀ n l, Q l → P (.dir n l))
    (h0 : Q []) (hc : ∀ e l, P e → Q l → Q (e :: l)) : ∀ l, Q l
  | [] => h0
  | e :: l => hc e l (fsRecP hf hd h0 hc e) (fslRecP hf hd h0 hc l)
end

theorem mapExtend_some_right {m₁ m₂ : CacheMap} {p : List String} {e : UrlEntry}
    (h : m₂ p = some e) : mapExtend m₁ m₂ p = some e := by
  simp [mapExtend, h]

theorem mapExtend_none_right {m₁ m₂ : CacheMap} {p : List String}
    (h : m₂ p = none) : mapExtend m₁ m₂ p = m₁ p := by
  simp [mapExtend, h]

theorem mapExtend_ne_none {m₁ m₂ : CacheMap} {p : List String}
    (h : mapExtend m₁ m₂ p ≠ none) : m₁ p ≠ none ∨ m₂ p ≠ none := by
  cases h2 : m₂ p with
  | some v => exact Or.inr (by simp [h2])
  | none => exact Or.inl (by rwa [mapExtend_none_right h2] at h)

theorem mapExtend_congr_at {a₁ a₂ b₁ b₂ : CacheMap} {p : List String}
    (ha : a₁ p = a₂ p) (hb : b₁ p = b₂ p) :
    mapExtend a₁ b₁ p = mapExtend a₂ b₂ p := by
  simp [mapExtend, ha, hb]

theorem fileEntryFor_mtime (cache : CacheMap) (p : List String) (d : FileData) :
    (fileEntryFor cache p d).mtime = d.mtime := by
  unfold fileEntryFor
  cases h : cache p with
  | none => rfl
  | some e =>
      by_cases h2 : e.mtime = d.mtime <;> simp [h2]

theorem findUrlsPyFiles_file (cache : CacheMap) (sp : List String) (n : String)
    (d : FileData) : findUrlsPyFiles cache sp (.file n d) = mapEmpty := by
  unfold findUrlsPyFiles
  rfl

theorem findUrlsPyFiles_dir (cache : CacheMap) (sp : List String) (n : String)
    (l : List FS) : findUrlsPyFiles cache sp (.dir n l) = scanEntries cache sp l := by
  conv_lhs => unfold findUrlsPyFiles

theorem scanEntries_nil (cache : CacheMap) (sp : List String) :
    scanEntries cache sp [] = mapEmpty := by
  unfold scanEntries
  rfl

theorem scanEntries_dir_ignored (cache : CacheMap) (sp : List String) (n : String)
    (sub : List FS) (rest : List FS) (hig : n ∈ IGNORED_DIRS) :
    scanEntries cache sp (.dir n sub :: rest) = scanEntries cache sp rest := by
  conv_lhs => unfold scanEntries
  simp [hig]

theorem scanEntries_dir_enter (cache : CacheMap) (sp : List String) (n : String)
    (sub : List FS) (rest : List FS) (hig : n ∉ IGNORED_DIRS) :
    scanEntries cache sp (.dir n sub :: rest) =
      mapExtend (findUrlsPyFiles cache (sp ++ [n]) (.dir n sub))
        (scanEntries cache sp rest) := by
  conv_lhs => unfold scanEntries
  simp [hig]

theorem scanEntries_file_sel (cache : CacheMap) (sp : List String) (n : String)
    (d : FileData) (rest : List FS) (hft : n ∈ FILE_TYPES) :
    scanEntries cache sp (.file n d :: rest) =
      mapExtend (mapSingleton (sp ++ [n]) (fileEntryFor cache (sp ++ [n]) d))
        (scanEntries cache sp rest) := by
  conv_lhs => unfold scanEntries
  simp [hft]

theorem scanEntries_file_skip (cache : CacheMap) (sp : List String) (n : String)
    (d : FileData) (rest : List FS) (hft : n ∉ FILE_TYPES) :
    scanEntries cache sp (.file n d :: rest) = scanEntries cache sp rest := by
  conv_lhs => unfold scanEntries
  simp [hft]

theorem mapSingleton_ne_none {k p : List String} {v : UrlEntry}
    (h : mapSingleton k v p ≠ none) : p = k := by
  by_cases hp : p = k
  · exact hp
  · simp [mapSingleton, hp] at h

/-- Every path the per-directory scan loop produces lies strictly below the
current directory, and its first extra segment is the name of one of the
directory's entries. -/
theorem scanEntries_domain (l : List FS) :
    ∀ (cache : CacheMap) (sp p : List String), scanEntries cache sp l p ≠ none →
      ∃ m tail, m ∈ l.map entryName ∧ p = sp ++ m :: tail := by
  refine fslRecP (P := fun fs => ∀ (cache : CacheMap) (sp p : List String),
      findUrlsPyFiles cache sp fs p ≠ none → ∃ m tail, p = sp ++ m :: tail)
    (Q := fun l => ∀ (cache : CacheMap) (sp p : List String),
      scanEntries cache sp l p ≠ none →
        ∃ m tail, m ∈ l.map entryName ∧ p = sp ++ m :: tail) ?_ ?_ ?_ ?_ l
  · intro n d cache sp p h
    rw [findUrlsPyFiles_file] at h
    simp [mapEmpty] at h
  · intro n l hQ cache sp p h
    rw [findUrlsPyFiles_dir] at h
    rcases hQ cache sp p h with ⟨m, tail, _, heq⟩
    exact ⟨m, tail, heq⟩
  · intro cache sp p h
    rw [scanEntries_nil] at h
    simp [mapEmpty] at h
  · intro e rest hP hQ cache sp p h
    cases e with
    | dir n sub =>
        by_cases hig : n ∈ IGNORED_DIRS
        · rw [scanEntries_dir_ignored cache sp n sub rest hig] at h
          rcases hQ cache sp p h with ⟨m, tail, hm, heq⟩
          exact ⟨m, tail, by simp [entryName, hm], heq⟩
        · rw [scanEntries_dir_enter cache sp n sub rest hig] at h
          rcases mapExtend_ne_none h with hA | hB
          · rcases hP cache (sp ++ [n]) p hA with ⟨m, tail, heq⟩
            refine ⟨n, m :: tail, by simp [entryName], ?_⟩
            rw [heq, List.append_assoc]
            rfl
          · rcases hQ cache sp p hB with ⟨m, tail, hm, heq⟩
            exact ⟨m, tail, by simp [entryName, hm], heq⟩
    | file n d =>
        by_cases hft : n ∈ FILE_TYPES
        · rw [scanEntries_file_sel cache sp n d rest hft] at h
          rcases mapExtend_ne_none h with hA | hB
          · refine ⟨n, [], by simp [entryName], ?_⟩
            rw [mapSingleton_ne_none hA]
          · rcases hQ cache sp p hB with ⟨m, tail, hm, heq⟩
            exact ⟨m, tail, by simp [entryName, hm], heq⟩
        · rw [scanEntries_file_skip cache sp n d rest hft] at h
          rcases hQ cache sp p h with ⟨m, tail, hm, heq⟩
          exact ⟨m, tail, by simp [entryName, hm], heq⟩

theorem findUrls_domain (fs : FS) (cache : CacheMap) (sp p : List String)
    (h : findUrlsPyFiles cache sp fs p ≠ none) : ∃ m tail, p = sp ++ m :: tail := by
  cases fs with
  | file n d =>
      rw [findUrlsPyFiles_file] at h
      simp [mapEmpty] at h
  | dir n l =>
      rw [findUrlsPyFiles_dir] at h
      rcases scanEntries_domain l cache sp p h with ⟨m, tail, _, heq⟩
      exact ⟨m, tail, heq⟩

theorem fsWF_file (n : String) (d : FileData) : fsWF (.file n d) = true := by
  unfold fsWF
  rfl

theorem fsWF_dir (n : String) (l : List FS) :
    fsWF (.dir n l) = (decide (l.map entryName).Nodup && fslWF l) := by
  conv_lhs => unfold fsWF

theorem fslWF_nil : fslWF [] = true := by
  unfold fslWF
  rfl

theorem fslWF_cons (e : FS) (rest : List FS) :
    fslWF (e :: rest) = (fsWF e && fslWF rest) := by
  conv_lhs => unfold fslWF

/-- The scan's result does not depend on cache entries for paths it does not
itself produce: replacing the consulted cache by any cache agreeing with the
scan's own output leaves the output unchanged (the key lemma behind cache
idempotence).  Requires distinct entry names per directory (fsWF). -/
theorem findUrls_cache_congr (fs : FS) :
    ∀ (cache cache' : CacheMap) (sp : List String), fsWF fs = true →
      (∀ p e, findUrlsPyFiles cache sp fs p = some e → cache' p = some e) →
      ∀ p, findUrlsPyFiles cache' sp fs p = findUrlsPyFiles cache sp fs p := by
  refine fsRecP (P := fun fs => ∀ (cache cache' : CacheMap) (sp : List String),
      fsWF fs = true →
      (∀ p e, findUrlsPyFiles cache sp fs p = some e → cache' p = some e) →
      ∀ p, findUrlsPyFiles cache' sp fs p = findUrlsPyFiles cache sp fs p)
    (Q := fun l => ∀ (cache cache' : CacheMap) (sp : List String),
      fslWF l = true → (l.map entryName).Nodup →
      (∀ p e, scanEntries cache sp l p = some e → cache' p = some e) →
      ∀ p, scanEntries cache' sp l p = scanEntries cache sp l p) ?_ ?_ ?_ ?_ fs
  · intro n d cache cache' sp _ _ p
    rw [findUrlsPyFiles_file, findUrlsPyFiles_file]
  · intro n l hQ cache cache' sp hwf H p
    rw [fsWF_dir, Bool.and_eq_true, decide_eq_true_iff] at hwf
    rw [findUrlsPyFiles_dir] at H ⊢
    rw [findUrlsPyFiles_dir]
    exact hQ cache cache' sp hwf.2 hwf.1 H p
  · intro cache cache' sp _ _ _ p
    rw [scanEntries_nil, scanEntries_nil]
  · intro e rest hP hQ cache cache' sp hwf hnd H p
    rw [fslWF_cons, Bool.and_eq_true] at hwf
    obtain ⟨he, hrest⟩ := hwf
    rw [List.map_cons, List.nodup_cons] at hnd
    obtain ⟨hn1, hn2⟩ := hnd
    cases e with
    | dir n sub =>
        by_cases hig : n ∈ IGNORED_DIRS
        · rw [scanEntries_dir_ignored cache sp n sub rest hig] at H
          rw [scanEntries_dir_ignored cache' sp n sub rest hig,
            scanEntries_dir_ignored cache sp n sub rest hig]
          exact hQ cache cache' sp hrest hn2 H p
        · rw [scanEntries_dir_enter cache sp n sub rest hig] at H
          rw [scanEntries_dir_enter cache' sp n sub rest hig,
            scanEntries_dir_enter cache sp n sub rest hig]
          have HB : ∀ q v, scanEntries cache sp rest q = some v → cache' q = some v := by
            intro q v hq
            exact H q v (mapExtend_some_right hq)
          have HA : ∀ q v,
              findUrlsPyFiles cache (sp ++ [n]) (.dir n sub) q = some v →
                cache' q = some v := by
            intro q v hq
            have hBq : scanEntries cache sp rest q = none := by
              by_contra hBq
              rcases scanEntries_domain rest cache sp q hBq with ⟨m, tail, hm, heq⟩
              have hunder : ∃ m2 tail2, q = (sp ++ [n]) ++ m2 :: tail2 :=
                findUrls_domain (.dir n sub) cache (sp ++ [n]) q (by simp [hq])
              rcases hunder with ⟨m2, tail2, heq2⟩
              rw [List.append_assoc] at heq2
              rw [heq] at heq2
              have := List.append_cancel_left heq2
              simp at this
              exact hn1 (this.1 ▸ hm)
            exact H q v (by rw [mapExtend_none_right hBq]; exact hq)
          have ha := hP cache cache' (sp ++ [n]) he HA p
          have hb := hQ cache cache' sp hrest hn2 HB p
          exact mapExtend_congr_at ha hb
    | file n d =>
        by_cases hft : n ∈ FILE_TYPES
        · rw [scanEntries_file_sel cache sp n d rest hft] at H
          rw [scanEntries_file_sel cache' sp n d rest hft,
            scanEntries_file_sel cache sp n d rest hft]
          have HB : ∀ q v, scanEntries cache sp rest q = some v → cache' q = some v := by
            intro q v hq
            exact H q v (mapExtend_some_right hq)
          have hb := hQ cache cache' sp hrest hn2 HB
          by_cases hp : p = sp ++ [n]
          · cases hBq : scanEntries cache sp rest p with
            | some v =>
                rw [mapExtend_some_right ((hb p).trans hBq), mapExtend_some_right hBq]
            | none =>
                rw [mapExtend_none_right ((hb p).trans hBq), mapExtend_none_right hBq]
                have hc' : cache' (sp ++ [n]) = some (fileEntryFor cache (sp ++ [n]) d) := by
                  rw [← hp]
                  apply H p
                  rw [mapExtend_none_right hBq]
                  simp [mapSingleton, hp]
                have hsame : fileEntryFor cache' (sp ++ [n]) d
                    = fileEntryFor cache (sp ++ [n]) d := by
                  conv_lhs => unfold fileEntryFor
                  rw [hc']
                  simp [fileEntryFor_mtime]
                simp [mapSingleton, hsame]
          · have h1 : mapSingleton (sp ++ [n]) (fileEntryFor cache' (sp ++ [n]) d) p
                = mapSingleton (sp ++ [n]) (fileEntryFor cache (sp ++ [n]) d) p := by
              simp [mapSingleton, hp]
            exact mapExtend_congr_at h1 (hb p)
        · rw [scanEntries_file_skip cache sp n d rest hft] at H
          rw [scanEntries_file_skip cache' sp n d rest hft,
            scanEntries_file_skip cache sp n d rest hft]
          exact hQ cache cache' sp hrest hn2 H p

/-! ## Claims C6-C9 -/

/-- Claim C6 (amended).  A failed read or parse is recovered silently: the
file contributes an empty route list and the run is not fatal; however the
scan DOES record an entry for the file in this run's result — with empty
patterns and the file's current modification time — because the mtime is
captured by fs::metadata in find_urls_py_files independently of the failed
read inside extract_url_patterns. -/
theorem read_failure_recorded_empty (cache : CacheMap) (p : List String) (d : FileData)
    (hfail : d.read = none ∨ d.parse = none) (hmiss : cache p = none) :
    extract_url_patterns d = [] ∧
      fileEntryFor cache p d = { patterns := [], mtime := d.mtime } := by
  have hext : extract_url_patterns d = [] := by
    unfold extract_url_patterns
    rcases hfail with h | h
    · rw [h]
    · cases hr : d.read with
      | none => rfl
      | some src => simp [hr, h]
  refine ⟨hext, ?_⟩
  unfold fileEntryFor
  rw [hmiss, hext]

/-- A file whose read fails (mtime 5, no readable content, no parse). -/
def c6data : FileData := { mtime := 5, read := none, parse := none }

/-- A project holding a single urls.py whose read fails. -/
def c6fs : FS := .dir "proj" [.file "urls.py" c6data]

theorem c6fs_at_urls :
    findUrlsPyFiles mapEmpty [] c6fs ["urls.py"]
      = some { patterns := [], mtime := 5 } := by
  simp +decide [c6fs, c6data, findUrlsPyFiles, scanEntries, mapExtend, mapSingleton,
    mapEmpty, fileEntryFor, extract_url_patterns, FILE_TYPES, IGNORED_DIRS]

theorem c6fs_wf : fsWF c6fs = true := by
  simp +decide [c6fs, fsWF_dir, fslWF_cons, fsWF_file, fslWF_nil, entryName]

/-- Counterexample to claim C6 as stated: the failing file's entry IS
recorded in this run's scan result, with its mtime captured. -/
theorem failed_read_still_recorded :
    c6data.read = none ∧
      findUrlsPyFiles mapEmpty [] c6fs ["urls.py"]
        = some { patterns := [], mtime := 5 } :=
  ⟨rfl, c6fs_at_urls⟩

theorem read_failure_recorded_empty_witness :
    (c6data.read = none ∨ c6data.parse = none) ∧ mapEmpty ["urls.py"] = none ∧
      (extract_url_patterns c6data = [] ∧
        fileEntryFor mapEmpty ["urls.py"] c6data
          = { patterns := [], mtime := c6data.mtime }) :=
  ⟨Or.inl rfl, rfl,
   read_failure_recorded_empty mapEmpty ["urls.py"] c6data (Or.inl rfl) rfl⟩

/-- Claim C7.  A cached entry with exactly-equal mtime is reused unchanged;
consequently (on a well-formed tree: distinct entry names per directory)
running the scan a second time over an unchanged project leaves the merged
urls map exactly as the first run produced it. -/
theorem mtime_equal_reuse_and_second_scan_identical :
    (∀ (cache : CacheMap) (p : List String) (d : FileData) (e : UrlEntry),
        cache p = some e → e.mtime = d.mtime → fileEntryFor cache p d = e) ∧
    (∀ (fs : FS) (sp : List String) (old : CacheMap), fsWF fs = true →
        mapExtend (mapExtend old (findUrlsPyFiles old sp fs))
            (findUrlsPyFiles (mapExtend old (findUrlsPyFiles old sp fs)) sp fs)
          = mapExtend old (findUrlsPyFiles old sp fs)) := by
  constructor
  · intro cache p d e hc hm
    unfold fileEntryFor
    rw [hc]
    simp [hm]
  · intro fs sp old hwf
    have hagree : ∀ p e, findUrlsPyFiles old sp fs p = some e →
        mapExtend old (findUrlsPyFiles old sp fs) p = some e := by
      intro p e h
      exact mapExtend_some_right h
    have hsame := findUrls_cache_congr fs old
      (mapExtend old (findUrlsPyFiles old sp fs)) sp hwf hagree
    funext p
    cases h2 : findUrlsPyFiles old sp fs p with
    | some e =>
        rw [mapExtend_some_right ((hsame p).trans h2), mapExtend_some_right h2]
    | none =>
        rw [mapExtend_none_right ((hsame p).trans h2)]

theorem mtime_equal_reuse_and_second_scan_identical_witness :
    (mapSingleton ["urls.py"] { patterns := [], mtime := 5 } ["urls.py"]
        = some { patterns := [], mtime := 5 } ∧
      ({ patterns := [], mtime := 5 } : UrlEntry).mtime = c6data.mtime ∧
      fileEntryFor (mapSingleton ["urls.py"] { patterns := [], mtime := 5 })
          ["urls.py"] c6data = { patterns := [], mtime := 5 }) ∧
    (fsWF c6fs = true ∧
      mapExtend (mapExtend mapEmpty (findUrlsPyFiles mapEmpty [] c6fs))
          (findUrlsPyFiles (mapExtend mapEmpty (findUrlsPyFiles mapEmpty [] c6fs)) [] c6fs)
        = mapExtend mapEmpty (findUrlsPyFiles mapEmpty [] c6fs)) :=
  ⟨⟨by decide, rfl,
    mtime_equal_reuse_and_second_scan_identical.1
      (mapSingleton ["urls.py"] { patterns := [], mtime := 5 }) ["urls.py"] c6data
      { patterns := [], mtime := 5 } (by decide) rfl⟩,
   ⟨c6fs_wf,
    mtime_equal_reuse_and_second_scan_identical.2 c6fs [] mapEmpty c6fs_wf⟩⟩

/-- The paths the directory walk may select: a chain of entry names ending at
a file whose basename is in FILE_TYPES, never passing through a directory
whose basename is in IGNORED_DIRS. -/
inductive SelectableIn : List FS → List String → Prop where
  | fileSel : ∀ (l : List FS) (n : String) (d : FileData),
      FS.file n d ∈ l → n ∈ FILE_TYPES → SelectableIn l [n]
  | dirSel : ∀ (l : List FS) (n : String) (sub : List FS) (segs : List String),
      FS.dir n sub ∈ l → n ∉ IGNORED_DIRS → SelectableIn sub segs →
      SelectableIn l (n :: segs)

theorem SelectableIn.weaken {l : List FS} {segs : List String} (e : FS)
    (h : SelectableIn l segs) : SelectableIn (e :: l) segs := by
  cases h with
  | fileSel l n d hm hf => exact .fileSel _ n d (List.mem_cons_of_mem e hm) hf
  | dirSel l n sub segs hm hig hsel =>
      exact .dirSel _ n sub segs (List.mem_cons_of_mem e hm) hig hsel

theorem scan_selectable_entries (l : List FS) :
    ∀ (cache : CacheMap) (sp p : List String), scanEntries cache sp l p ≠ none →
      ∃ segs, p = sp ++ segs ∧ SelectableIn l segs := by
  refine fslRecP (P := fun fs => ∀ (cache : CacheMap) (sp p : List String),
      findUrlsPyFiles cache sp fs p ≠ none →
        ∃ nm entries segs, fs = .dir nm entries ∧ p = sp ++ segs ∧
          SelectableIn entries segs)
    (Q := fun l => ∀ (cache : CacheMap) (sp p : List String),
      scanEntries cache sp l p ≠ none →
        ∃ segs, p = sp ++ segs ∧ SelectableIn l segs) ?_ ?_ ?_ ?_ l
  · intro n d cache sp p h
    rw [findUrlsPyFiles_file] at h
    simp [mapEmpty] at h
  · intro n l hQ cache sp p h
    rw [findUrlsPyFiles_dir] at h
    rcases hQ cache sp p h with ⟨segs, hp, hsel⟩
    exact ⟨n, l, segs, rfl, hp, hsel⟩
  · intro cache sp p h
    rw [scanEntries_nil] at h
    simp [mapEmpty] at h
  · intro e rest hP hQ cache sp p h
    cases e with
    | dir n sub =>
        by_cases hig : n ∈ IGNORED_DIRS
        · rw [scanEntries_dir_ignored cache sp n sub rest hig] at h
          rcases hQ cache sp p h with ⟨segs, hp, hsel⟩
          exact ⟨segs, hp, hsel.weaken _⟩
        · rw [scanEntries_dir_enter cache sp n sub rest hig] at h
          rcases mapExtend_ne_none h with hA | hB
          · rcases hP cache (sp ++ [n]) p hA with ⟨nm, entries, segs, heq, hp, hsel⟩
            obtain ⟨rfl, rfl⟩ : n = nm ∧ sub = entries := by
              cases heq
              exact ⟨rfl, rfl⟩
            refine ⟨n :: segs, ?_, ?_⟩
            · rw [hp, List.append_assoc]
              rfl
            · exact .dirSel _ n sub segs (List.mem_cons_self _ _) hig hsel
          · rcases hQ cache sp p hB with ⟨segs, hp, hsel⟩
            exact ⟨segs, hp, hsel.weaken _⟩
    | file n d =>
        by_cases hft : n ∈ FILE_TYPES
        · rw [scanEntries_file_sel cache sp n d rest hft] at h
          rcases mapExtend_ne_none h with hA | hB
          · refine ⟨[n], mapSingleton_ne_none hA, ?_⟩
            exact .fileSel _ n d (List.mem_cons_self _ _) hft
          · rcases hQ cache sp p hB with ⟨segs, hp, hsel⟩
            exact ⟨segs, hp, hsel.weaken _⟩
        · rw [scanEntries_file_skip cache sp n d rest hft] at h
          rcases hQ cache sp p h with ⟨segs, hp, hsel⟩
          exact ⟨segs, hp, hsel.weaken _⟩

/-- Claim C8.  Every path the scan records descends from the root through
directories none of which has a basename in the ignored set, and ends at a
file whose basename is exactly urls.py; in particular a urls.py anywhere
below an ignored directory contributes no cache entry. -/
theorem scan_selects_only_urls_py_outside_ignored (fs : FS) (cache : CacheMap)
    (sp p : List String) (h : findUrlsPyFiles cache sp fs p ≠ none) :
    ∃ nm entries segs, fs = .dir nm entries ∧ p = sp ++ segs ∧
      SelectableIn entries segs := by
  cases fs with
  | file n d =>
      rw [findUrlsPyFiles_file] at h
      simp [mapEmpty] at h
  | dir n l =>
      rw [findUrlsPyFiles_dir] at h
      rcases scan_selectable_entries l cache sp p h with ⟨segs, hp, hsel⟩
      exact ⟨n, l, segs, rfl, hp, hsel⟩

theorem scan_selects_only_urls_py_outside_ignored_witness :
    (findUrlsPyFiles mapEmpty [] c6fs ["urls.py"] ≠ none) ∧
    (∃ nm entries segs, c6fs = .dir nm entries ∧ ["urls.py"] = [] ++ segs ∧
      SelectableIn entries segs) := by
  have h : findUrlsPyFiles mapEmpty [] c6fs ["urls.py"] ≠ none := by
    rw [c6fs_at_urls]
    simp
  exact ⟨h, scan_selects_only_urls_py_outside_ignored c6fs mapEmpty [] ["urls.py"] h⟩

/-- Claim C9.  One run of main merges the scan result into the prior cache
with HashMap::extend: any path the scan did not produce this run — in
particular a cached path that no longer exists on disk — keeps its prior
entry unchanged; only paths seen this run are added or overwritten. -/
theorem stale_entries_preserved (old : CacheMap) (sp : List String) (fs : FS)
    (p : List String) (h : findUrlsPyFiles old sp fs p = none) :
    mainUrlsUpdate old sp fs p = old p := by
  unfold mainUrlsUpdate
  exact mapExtend_none_right h

/-- A prior cache holding one entry for a path that is absent from c6fs. -/
def c9old : CacheMap :=
  mapSingleton ["gone", "urls.py"] { patterns := ["x".toList], mtime := 1 }

theorem c9_scan_at_gone :
    findUrlsPyFiles c9old [] c6fs ["gone", "urls.py"] = none := by
  simp +decide [c6fs, c6data, c9old, findUrlsPyFiles, scanEntries, mapExtend,
    mapSingleton, mapEmpty, fileEntryFor, extract_url_patterns, FILE_TYPES, IGNORED_DIRS]

theorem stale_entries_preserved_witness :
    findUrlsPyFiles c9old [] c6fs ["gone", "urls.py"] = none ∧
    mainUrlsUpdate c9old [] c6fs ["gone", "urls.py"] = c9old ["gone", "urls.py"] ∧
    c9old ["gone", "urls.py"] = some { patterns := ["x".toList], mtime := 1 } :=
  ⟨c9_scan_at_gone,
   stale_entries_preserved c9old [] c6fs ["gone", "urls.py"] c9_scan_at_gone,
   by decide⟩

/-- Claim C5.  The tree walk is a total function of the tree and source (it
is defined for every input, so no panic or error is possible), it visits
every node of the tree in the fixed worklist order, and its output is the
filterMap of the per-call extraction over that order: a node that is not a
call, or a call from which extraction recovers nothing (missing identifier
child, missing argument list, unexpected category), contributes nothing
while all remaining nodes are still processed. -/
theorem extract_from_tree_total_walk (src : List Char) (root : Node)
    (patterns : List (List Char)) :
    extract_from_tree src root patterns =
      patterns ++ (walkOrder root).filterMap (gCall src) := by
  unfold extract_from_tree
  rw [extractLoop_eq]
  simp [flatTraverse]

/-- Claim C10.  The name= test is plain substring containment on the keyword
argument's span: any keyword whose text merely contains name= — for example
a keyword identifier ending in the letters name, as in surname="x" — passes
the test, and its (single-equals) value is extracted as the route name even
though the keyword is not name. -/
theorem contains_test_matches_suffix_keywords (src : List Char)
    (node idn al kw : Node)
    (hch : node.children = [idn, al])
    (hid : idn.kind = "identifier") (hfc : nodeText src idn ∈ FUNCTION_CALLS)
    (hal : al.kind = "argument_list") (halc : al.children = [kw])
    (hkw : kw.kind = "keyword_argument")
    (hcont : strContains (nodeText src kw) nameEq = true)
    (hsplit : ∃ lhs rhs, splitChar '=' (nodeText src kw) = [lhs, rhs]) :
    ∃ lhs rhs, splitChar '=' (nodeText src kw) = [lhs, rhs] ∧
      extract_pattern_name src node = some (trimQuotes rhs) := by
  rcases hsplit with ⟨lhs, rhs, hs⟩
  have hrec : recoverKwarg src kw = some (trimQuotes rhs) :=
    (recoverKwarg_eq_some_iff src kw (trimQuotes rhs)).mpr ⟨hkw, hcont, lhs, rhs, hs, rfl⟩
  have halid : ¬ al.kind = "identifier" := by rw [hal]; decide
  have hidal : ¬ idn.kind = "argument_list" := by rw [hid]; decide
  refine ⟨lhs, rhs, hs, ?_⟩
  rw [extract_pattern_name_char, hch]
  simp [identMatches, callRecoveries, kwargRecoveries, hid, hfc, hal, halc,
    halid, hidal, hrec]

/-- Source buffer: path(surname="x") — the keyword is surname, not name. -/
def c10src : List Char := "path(surname=\"x\")".toList

def c10id : Node := .mk "identifier" 0 4 []

def c10kw : Node := .mk "keyword_argument" 5 16 []

def c10al : Node := .mk "argument_list" 4 17 [c10kw]

def c10node : Node := .mk "call" 0 17 [c10id, c10al]

theorem contains_test_matches_suffix_keywords_witness :
    (c10node.children = [c10id, c10al] ∧ c10id.kind = "identifier" ∧
      nodeText c10src c10id ∈ FUNCTION_CALLS ∧ c10al.kind = "argument_list" ∧
      c10al.children = [c10kw] ∧ c10kw.kind = "keyword_argument" ∧
      strContains (nodeText c10src c10kw) nameEq = true ∧
      splitChar '=' (nodeText c10src c10kw) = ["surname".toList, "\"x\"".toList]) ∧
    (∃ lhs rhs, splitChar '=' (nodeText c10src c10kw) = [lhs, rhs] ∧
      extract_pattern_name c10src c10node = some (trimQuotes rhs)) ∧
    extract_pattern_name c10src c10node = some ("x".toList) :=
  ⟨⟨rfl, by decide, by decide, by decide, rfl, by decide, by decide, by decide⟩,
   contains_test_matches_suffix_keywords c10src c10node c10id c10al c10kw rfl
     (by decide) (by decide) (by decide) rfl (by decide) (by decide)
     ⟨"surname".toList, "\"x\"".toList, by decide⟩,
   by decide⟩
